import Mathlib

/-!
Shallow embedding of `src/fonts.rs` from the wldash repository: the font
cache (`FontMap`), its deferred three-state wrapper (`MaybeFontMap`), and
the bit-pattern float key (`ComparableF32`).

Modelling conventions:
* An `f32` is represented by its IEEE-754 binary32 bit pattern, a natural
  number below `2 ^ 32`.  `ComparableF32::key` is `to_bits`, so the key of
  the wrapped float is exactly that natural number.
* Rust `HashMap`s are modelled as association lists with the usual
  lookup/insert/update operations; `insert` replaces an existing binding
  in place and otherwise appends.
* Panics (`expect`, `unwrap`, `panic!` in the source) are modelled as
  `none` of an `Option` result.
* External capabilities (filesystem reads, the rusttype parser
  `Font::try_from_vec`, the fontconfig lookup inside `find_font`) are an
  explicit environment `Env`; a parsed font object is opaque and carried
  as a `Nat` identifier.
* `load_fonts` and `MaybeFontMap::resolve` are instrumented with an event
  trace (`Ev`) / join counter recording the observable external effects:
  which names were resolved through the system resolver, which font files
  were read and parsed, and how many thread joins happened.
-/

namespace Wldash

/-- An IEEE-754 binary32 bit pattern (the result of `f32::to_bits`). -/
abbrev Bits32 := Nat

/-- `struct ComparableF32(f32)` — the float is represented by its bit
pattern. -/
structure ComparableF32 where
  bits : Bits32
deriving DecidableEq

/-- `ComparableF32::key`: `self.0.to_bits() as u64`. -/
def ComparableF32.key (c : ComparableF32) : Nat :=
  c.bits

/-- `impl PartialEq for ComparableF32`: `self.key() == other.key()`. -/
def ComparableF32.beq (a b : ComparableF32) : Bool :=
  a.key == b.key

/-- `impl Hash for ComparableF32` feeds `self.key()` to the hasher; two
keys collide deterministically iff this value coincides. -/
def ComparableF32.hashInput (c : ComparableF32) : Nat :=
  c.key

/-- The numeric value denoted by a binary32 bit pattern, scaled by
`2 ^ 150` so that it is an integer (`none` for infinities and NaNs).
Scaling by a fixed constant is injective, so two finite bit patterns
denote the same real number iff `f32val` agrees on them.  Used only to
relate bit-pattern equality to numeric equality. -/
def f32val (b : Bits32) : Option ℤ :=
  let sign : Nat := b / 2 ^ 31 % 2
  let expo : Nat := b / 2 ^ 23 % 2 ^ 8
  let frac : Nat := b % 2 ^ 23
  if expo = 255 then none
  else
    let mag : ℤ := if expo = 0 then frac * 2 else (2 ^ 23 + frac) * 2 ^ expo
    some (if sign = 1 then -mag else mag)

/-- Whether a binary32 bit pattern denotes a NaN. -/
def isNaN32 (b : Bits32) : Bool :=
  (b / 2 ^ 23 % 2 ^ 8 == 255) && (b % 2 ^ 23 != 0)

/-! ### Association lists (the model of `std::collections::HashMap`) -/

/-- `HashMap::get`: first binding of the key, if any. -/
def lookupA {α β : Type} [DecidableEq α] : List (α × β) → α → Option β
  | [], _ => none
  | (k, v) :: rest, a => if k = a then some v else lookupA rest a

/-- `HashMap::insert`: replace an existing binding in place, otherwise
append. -/
def insertA {α β : Type} [DecidableEq α] : List (α × β) → α → β → List (α × β)
  | [], a, b => [(a, b)]
  | (k, v) :: rest, a, b =>
    if k = a then (a, b) :: rest else (k, v) :: insertA rest a b

/-- Mutation through `HashMap::get_mut`: apply `g` to the binding of `a`,
if present. -/
def updateA {α β : Type} [DecidableEq α] : List (α × β) → α → (β → β) → List (α × β)
  | [], _, _ => []
  | (k, v) :: rest, a, g =>
    if k = a then (k, g v) :: rest else (k, v) :: updateA rest a g

/-- The keys of an association list. -/
def keysOf {α β : Type} (l : List (α × β)) : List α :=
  l.map Prod.fst

/-! ### External collaborators -/

/-- Modelled from the spec: `draw::Font` (the file `src/draw.rs` is not
among the given sources).  The spec treats it as an opaque rendering-ready
instance with two capabilities — "construct(font_object, size) ->
renderable" and "renderable.warm_cache(text) mutates it in place to
pre-cache glyphs for `text`" — so we record the borrowed parsed-font
identifier, the size, and the ordered list of warmed sample texts. -/
structure DrawFont where
  fontref : Nat
  size : Bits32
  cache : List String
deriving DecidableEq

/-- `draw::Font::new(fontref, size)`: a fresh instance, nothing warmed. -/
def DrawFont.new (fontref : Nat) (size : Bits32) : DrawFont :=
  ⟨fontref, size, []⟩

/-- `draw::Font::add_str_to_cache`: warm the glyph cache for one more
sample text. -/
def DrawFont.add_str_to_cache (f : DrawFont) (s : String) : DrawFont :=
  { f with cache := f.cache ++ [s] }

/-- The external capabilities `fonts.rs` consumes.  `readFile` is the
`File::open` + `read_to_end` pair in `FontLoader::from_path` (`none` when
opening or reading fails, which the source turns into a panic);
`tryFromVec` is rusttype's `Font::try_from_vec` (`none` on malformed
data), returning an opaque parsed-font identifier; `findFontSys` is the
fontconfig lookup inside `find_font` (`none` when the name is not found
or the `fontconfig` feature is off, both of which the source turns into a
panic). -/
structure Env where
  readFile : String → Option (List Nat)
  tryFromVec : List Nat → Option Nat
  findFontSys : String → Option String

/-- `find_font(name)`: resolve a font name through fontconfig; `none`
models the panic on failure (or on a build without fontconfig). -/
def find_font (env : Env) (name : String) : Option String :=
  env.findFontSys name

/-- `FontLoader::from_path(path)`: read the file (outer `none` = the
`expect`/`unwrap` panic on open or read failure), then parse it with
`Font::try_from_vec` (inner `Option`, `none` on malformed data). -/
def FontLoader.from_path (env : Env) (path : String) : Option (Option Nat) :=
  (env.readFile path).map env.tryFromVec

/-! ### FontMap -/

/-- `pub struct FontMap`: the ready cache keyed by
`(&'static str, ComparableF32)` (name, size bit pattern), the name → path
map, and the pending requirements map. -/
structure FontMap where
  fonts : List ((String × Bits32) × DrawFont)
  font_paths : List (String × String)
  required_fonts : List (String × (String × List (Bits32 × String)))
deriving DecidableEq

/-- `FontMap::new()`: all three maps empty. -/
def FontMap.new : FontMap :=
  ⟨[], [], []⟩

/-- `FontMap::queue_font(font_name, size, preload)`: push `(size, preload)`
onto the name's pending list, creating the entry if absent. -/
def FontMap.queue_font (m : FontMap) (font_name : String) (size : Bits32)
    (preload : String) : FontMap :=
  match lookupA m.required_fonts font_name with
  | some _ =>
    { m with
      required_fonts :=
        updateA m.required_fonts font_name fun v => (v.1, v.2 ++ [(size, preload)]) }
  | none =>
    { m with
      required_fonts :=
        insertA m.required_fonts font_name (font_name, [(size, preload)]) }

/-- `FontMap::add_font_path(font_name, font_path)`. -/
def FontMap.add_font_path (m : FontMap) (font_name : String)
    (font_path : String) : FontMap :=
  { m with font_paths := insertA m.font_paths font_name font_path }

/-- The observable external effects of `load_fonts`: `sysResolve name
path` records a `find_font` invocation for `name` returning `path`;
`load name path` records a `FontLoader::from_path` read-and-parse of
`name`'s file at `path`. -/
inductive Ev where
  | sysResolve (name : String) (path : String)
  | load (name : String) (path : String)
deriving DecidableEq

/-- The body of the inner loop of `load_fonts`, for one queued
`(size, preload)` pair of `font_name`: warm the existing cache entry if
one exists at `(font_name, size)`, otherwise insert a fresh instance
(built on the parsed font `fontref`) warmed with `preload`. -/
def loadStep (fontref : Nat) (font_name : String) (size : Bits32)
    (preload : String) (fonts : List ((String × Bits32) × DrawFont)) :
    List ((String × Bits32) × DrawFont) :=
  match lookupA fonts (font_name, size) with
  | some _ =>
    updateA fonts (font_name, size) fun f => f.add_str_to_cache preload
  | none =>
    insertA fonts (font_name, size)
      ((DrawFont.new fontref size).add_str_to_cache preload)

/-- The inner loop of `load_fonts`: `loadStep` for each queued
`(size, preload)` of `font_name`, in queue order. -/
def loadSizes (fontref : Nat) (font_name : String) :
    List (Bits32 × String) → List ((String × Bits32) × DrawFont) →
    List ((String × Bits32) × DrawFont)
  | [], fonts => fonts
  | (size, preload) :: rest, fonts =>
    loadSizes fontref font_name rest (loadStep fontref font_name size preload fonts)

/-- One iteration of the `load_fonts` outer loop, for the entry
`(font_name, v)` of `required_fonts`: determine the path (explicit entry
of `font_paths`, else `find_font`, caching the result), read and parse
the file, then run the inner loop over `v.2`.  Returns the new ready
cache, the new path map and the emitted events; `none` is a panic. -/
def loadEntry (env : Env) (font_paths : List (String × String))
    (font_name : String) (v : String × List (Bits32 × String))
    (fonts : List ((String × Bits32) × DrawFont)) :
    Option (List ((String × Bits32) × DrawFont) × List (String × String) × List Ev) :=
  match lookupA font_paths font_name with
  | some p =>
    (FontLoader.from_path env p).bind fun pf =>
      pf.map fun fr =>
        (loadSizes fr font_name v.2 fonts, font_paths, [Ev.load font_name p])
  | none =>
    (find_font env font_name).bind fun s =>
      (FontLoader.from_path env s).bind fun pf =>
        pf.map fun fr =>
          (loadSizes fr font_name v.2 fonts,
            insertA font_paths font_name s,
            [Ev.sysResolve font_name s, Ev.load font_name s])

/-- The `load_fonts` loop over the entries of `required_fonts`, threading
the ready cache and the path map and concatenating the events of each
entry in iteration order. -/
def loadFontsAux (env : Env) :
    List (String × (String × List (Bits32 × String))) →
    List ((String × Bits32) × DrawFont) → List (String × String) →
    Option (List ((String × Bits32) × DrawFont) × List (String × String) × List Ev)
  | [], fonts, fp => some (fonts, fp, [])
  | (font_name, v) :: rest, fonts, fp =>
    (loadEntry env fp font_name v fonts).bind fun r =>
      (loadFontsAux env rest r.1 r.2.1).map fun r2 =>
        (r2.1, r2.2.1, r.2.2 ++ r2.2.2)

/-- `FontMap::load_fonts()`: process every pending requirement.
`required_fonts` is only iterated, never modified.  `none` is a panic
(unresolvable name, unreadable file, or malformed font data). -/
def FontMap.load_fonts (env : Env) (m : FontMap) : Option (FontMap × List Ev) :=
  (loadFontsAux env m.required_fonts m.fonts m.font_paths).map fun r =>
    ({ fonts := r.1, font_paths := r.2.1, required_fonts := m.required_fonts }, r.2.2)

/-- `FontMap::get_font(font_name, size)`: exact lookup in the ready
cache; `none` models the `expect("no font at specified size")` panic. -/
def FontMap.get_font (m : FontMap) (font_name : String) (size : Bits32) :
    Option DrawFont :=
  lookupA m.fonts (font_name, size)

/-! ### MaybeFontMap -/

/-- `pub enum MaybeFontMap`.  The `JoinHandle<FontMap>` of `Waiting` is
modelled by the value the worker thread produces, `none` when the worker
panicked (so that `join().unwrap()` panics); `Ready` holds the
`Rc<RefCell<FontMap>>` contents. -/
inductive MaybeFontMap where
  | Waiting (handle : Option FontMap)
  | Ready (f : FontMap)
  | Invalid
deriving DecidableEq

/-- `MaybeFontMap::unwrap()`: the shared map when `Ready`, otherwise the
`panic!("fontmap not yet ready")`, modelled as `none`. -/
def MaybeFontMap.unwrap : MaybeFontMap → Option FontMap
  | .Ready f => some f
  | _ => none

/-- `MaybeFontMap::resolve()`, instrumented with the number of thread
joins performed.  Only a `Waiting` state matches the `matches!` guard: it
is replaced by `Invalid`, the handle is joined (`none` if the worker
panicked) and the state becomes `Ready`.  Any other state is left
untouched and joins nothing. -/
def MaybeFontMap.resolve : MaybeFontMap → Option (MaybeFontMap × Nat)
  | .Waiting handle =>
    match handle with
    | some fm => some (.Ready fm, 1)
    | none => none
  | s => some (s, 0)

/-- `n` successive calls of `resolve` on one handle, accumulating the
total number of thread joins. -/
def MaybeFontMap.resolveN : Nat → MaybeFontMap → Option (MaybeFontMap × Nat)
  | 0, s => some (s, 0)
  | n + 1, s =>
    s.resolve.bind fun r =>
      (resolveN n r.1).map fun r2 => (r2.1, r.2 + r2.2)

/-! ### Helper functions used by the statements -/

/-- The sample texts queued for one particular size, in queue order. -/
def textsFor (sizes : List (Bits32 × String)) (size : Bits32) : List String :=
  (sizes.filter fun p => p.1 == size).map Prod.snd

/-- The glyph-warm-up contents of the cache entry for a key after one
`load_fonts` pass, as a function of the entry before the pass and of the
sample texts queued for that key. -/
def cacheAfter (old : Option DrawFont) (ts : List String) : Option (List String) :=
  match old with
  | some f => some (f.cache ++ ts)
  | none => if ts.isEmpty then none else some ts

/-- How many times the font file of `name` was read from disk and parsed
(one `load` event per `FontLoader::from_path` call). -/
def countLoads (name : String) (evs : List Ev) : Nat :=
  (evs.filter fun e =>
    match e with
    | .load n _ => n == name
    | _ => false).length

/-- The font name an event concerns. -/
def evName : Ev → String
  | .sysResolve n _ => n
  | .load n _ => n

/-! ### Concrete data for examples -/

/-- A well-behaved environment for concrete runs: every file exists and
parses (the parsed font object gets the opaque id 0), and every name
resolves to the path "/f.ttf". -/
def envW : Env :=
  ⟨fun _ => some [], fun _ => some 0, fun _ => some "/f.ttf"⟩

/-- The spec §8 scenario: queue ("Sans", 12.0, "Hello"),
("Sans", 12.0, "World"), ("Sans", 24.0, "Hi").  12.0f32 has bit pattern
1094713344 and 24.0f32 has bit pattern 1103101952. -/
def mC3 : FontMap :=
  ((FontMap.new.queue_font "Sans" 1094713344 "Hello").queue_font
      "Sans" 1094713344 "World").queue_font "Sans" 1103101952 "Hi"

/-- The state `load_fonts` produces from `mC3` under `envW`: one entry per
(name, size-key), the 12.0 entry warmed for both "Hello" and "World". -/
def mC3r : FontMap :=
  ⟨[(("Sans", 1094713344), ⟨0, 1094713344, ["Hello", "World"]⟩),
      (("Sans", 1103101952), ⟨0, 1103101952, ["Hi"]⟩)],
    [("Sans", "/f.ttf")],
    [("Sans", ("Sans",
      [(1094713344, "Hello"), (1094713344, "World"), (1103101952, "Hi")]))]⟩

/-- The events of that `load_fonts` run. -/
def evsC3 : List Ev :=
  [Ev.sysResolve "Sans" "/f.ttf", Ev.load "Sans" "/f.ttf"]

/-- The pending entry `mC3` holds for "Sans". -/
def vC3 : String × List (Bits32 × String) :=
  ("Sans", [(1094713344, "Hello"), (1094713344, "World"), (1103101952, "Hi")])

/-- One queued requirement for "A". -/
def mC1 : FontMap :=
  FontMap.new.queue_font "A" 100 "x"

/-- The state `load_fonts` produces from `mC1` under `envW`. -/
def mC1r : FontMap :=
  ⟨[(("A", 100), ⟨0, 100, ["x"]⟩)], [("A", "/f.ttf")],
    [("A", ("A", [(100, "x")]))]⟩

/-- The events of that run. -/
def evsC1 : List Ev :=
  [Ev.sysResolve "A" "/f.ttf", Ev.load "A" "/f.ttf"]

/-- One queued requirement for "Mono". -/
def mC7 : FontMap :=
  FontMap.new.queue_font "Mono" 100 "ab"

/-- Result of resolving `mC7` after `add_font_path "Mono" "/override.ttf"`. -/
def mC7a : FontMap :=
  ⟨[(("Mono", 100), ⟨0, 100, ["ab"]⟩)], [("Mono", "/override.ttf")],
    [("Mono", ("Mono", [(100, "ab")]))]⟩

/-- Events of that run: no system resolution, one read of the override. -/
def evsC7a : List Ev :=
  [Ev.load "Mono" "/override.ttf"]

/-- Result of resolving `mC7` without an override, under `envW`. -/
def mC7b : FontMap :=
  ⟨[(("Mono", 100), ⟨0, 100, ["ab"]⟩)], [("Mono", "/f.ttf")],
    [("Mono", ("Mono", [(100, "ab")]))]⟩

/-- Events of that run: the system resolver is consulted and its answer
is read. -/
def evsC7b : List Ev :=
  [Ev.sysResolve "Mono" "/f.ttf", Ev.load "Mono" "/f.ttf"]

/-- One queued requirement for "Serif". -/
def mC9 : FontMap :=
  FontMap.new.queue_font "Serif" 100 "x"

/-- Result of the first `load_fonts` on `mC9` under `envW`. -/
def mC9r : FontMap :=
  ⟨[(("Serif", 100), ⟨0, 100, ["x"]⟩)], [("Serif", "/f.ttf")],
    [("Serif", ("Serif", [(100, "x")]))]⟩

/-- Events of the first run. -/
def evsC9a : List Ev :=
  [Ev.sysResolve "Serif" "/f.ttf", Ev.load "Serif" "/f.ttf"]

/-- Result of a second `load_fonts` on `mC9r`: the still-pending
requirement is re-processed, warming "x" a second time. -/
def mC9rr : FontMap :=
  ⟨[(("Serif", 100), ⟨0, 100, ["x", "x"]⟩)], [("Serif", "/f.ttf")],
    [("Serif", ("Serif", [(100, "x")]))]⟩

/-- Events of the second run: the path is cached, the file is read again. -/
def evsC9b : List Ev :=
  [Ev.load "Serif" "/f.ttf"]

/-- Result of queueing ("Sans", NaN-bits 2143289344, "!") on a fresh map
and resolving under `envW`. -/
def mC10r : FontMap :=
  ⟨[(("Sans", 2143289344), ⟨0, 2143289344, ["!"]⟩)], [("Sans", "/f.ttf")],
    [("Sans", ("Sans", [(2143289344, "!")]))]⟩

/-- Events of that run. -/
def evsC10 : List Ev :=
  [Ev.sysResolve "Sans" "/f.ttf", Ev.load "Sans" "/f.ttf"]

/-! ### Association-list lemmas -/

theorem lookupA_insertA_self {α β : Type} [DecidableEq α]
    (l : List (α × β)) (a : α) (b : β) :
    lookupA (insertA l a b) a = some b := by
  induction l with
  | nil => simp [insertA, lookupA]
  | cons p rest ih =>
    obtain ⟨k, v⟩ := p
    by_cases h : k = a <;> simp [insertA, lookupA, h, ih]

@[simp]
theorem keysOf_nil {α β : Type} : keysOf ([] : List (α × β)) = [] :=
  rfl

@[simp]
theorem keysOf_cons {α β : Type} (k : α) (v : β) (l : List (α × β)) :
    keysOf ((k, v) :: l) = k :: keysOf l :=
  rfl

theorem lookupA_insertA_ne {α β : Type} [DecidableEq α]
    (l : List (α × β)) (a : α) (b : β) {c : α} (h : c ≠ a) :
    lookupA (insertA l a b) c = lookupA l c := by
  induction l with
  | nil =>
    have hac : a ≠ c := Ne.symm h
    simp [insertA, lookupA, hac]
  | cons p rest ih =>
    obtain ⟨k, v⟩ := p
    by_cases hk : k = a
    · subst hk
      have hkc : ¬k = c := fun he => h he.symm
      simp [insertA, lookupA, hkc]
    · simp [insertA, lookupA, hk, ih]

theorem lookupA_updateA_self {α β : Type} [DecidableEq α]
    (l : List (α × β)) (a : α) (g : β → β) :
    lookupA (updateA l a g) a = (lookupA l a).map g := by
  induction l with
  | nil => simp [updateA, lookupA]
  | cons p rest ih =>
    obtain ⟨k, v⟩ := p
    by_cases h : k = a
    · simp [updateA, lookupA, h]
    · simp [updateA, lookupA, h, ih]

theorem lookupA_updateA_ne {α β : Type} [DecidableEq α]
    (l : List (α × β)) (a : α) (g : β → β) {c : α} (h : c ≠ a) :
    lookupA (updateA l a g) c = lookupA l c := by
  induction l with
  | nil => simp [updateA]
  | cons p rest ih =>
    obtain ⟨k, v⟩ := p
    by_cases hk : k = a
    · subst hk
      have hkc : ¬k = c := fun he => h he.symm
      simp [updateA, lookupA, hkc]
    · simp [updateA, lookupA, hk, ih]

theorem keysOf_updateA {α β : Type} [DecidableEq α]
    (l : List (α × β)) (a : α) (g : β → β) :
    keysOf (updateA l a g) = keysOf l := by
  induction l with
  | nil => rfl
  | cons p rest ih =>
    obtain ⟨k, v⟩ := p
    by_cases h : k = a
    · simp [updateA, h]
    · simp [updateA, h, ih]

theorem lookupA_eq_none_iff {α β : Type} [DecidableEq α]
    (l : List (α × β)) (a : α) :
    lookupA l a = none ↔ a ∉ keysOf l := by
  induction l with
  | nil => simp [lookupA]
  | cons p rest ih =>
    obtain ⟨k, v⟩ := p
    by_cases h : k = a
    · subst h
      simp [lookupA]
    · have hne : a ≠ k := fun he => h he.symm
      simp [lookupA, h, ih, hne]

theorem mem_keysOf_iff_lookupA {α β : Type} [DecidableEq α]
    (l : List (α × β)) (a : α) :
    a ∈ keysOf l ↔ ∃ b, lookupA l a = some b := by
  constructor
  · intro hm
    cases hl : lookupA l a with
    | none => exact absurd ((lookupA_eq_none_iff l a).1 hl) (by simp [hm])
    | some b => exact ⟨b, rfl⟩
  · rintro ⟨b, hb⟩
    by_contra hm
    rw [(lookupA_eq_none_iff l a).2 hm] at hb
    cases hb

theorem keysOf_insertA_nodup {α β : Type} [DecidableEq α]
    (l : List (α × β)) (a : α) (b : β) (h : (keysOf l).Nodup) :
    (keysOf (insertA l a b)).Nodup := by
  induction l with
  | nil => simp [insertA]
  | cons p rest ih =>
    obtain ⟨k, v⟩ := p
    simp only [keysOf_cons, List.nodup_cons] at h
    by_cases hk : k = a
    · subst hk
      have hrw : insertA ((k, v) :: rest) k b = (k, b) :: rest := by
        simp [insertA]
      rw [hrw]
      simp only [keysOf_cons, List.nodup_cons]
      exact h
    · have hmem : k ∉ keysOf (insertA rest a b) := by
        intro hc
        rcases (mem_keysOf_iff_lookupA _ _).1 hc with ⟨c, hc'⟩
        rw [lookupA_insertA_ne rest a b hk] at hc'
        exact h.1 ((mem_keysOf_iff_lookupA _ _).2 ⟨c, hc'⟩)
      simp only [insertA, if_neg hk, keysOf_cons, List.nodup_cons]
      exact ⟨hmem, ih h.2⟩

/-! ### Lemmas about the inner loop of `load_fonts` -/

theorem lookupA_loadStep_ne (fr : Nat) (fn : String) (size : Bits32)
    (pl : String) (fonts : List ((String × Bits32) × DrawFont))
    {k : String × Bits32} (h : k ≠ (fn, size)) :
    lookupA (loadStep fr fn size pl fonts) k = lookupA fonts k := by
  unfold loadStep
  cases lookupA fonts (fn, size) with
  | some f => exact lookupA_updateA_ne fonts (fn, size) _ h
  | none => exact lookupA_insertA_ne fonts (fn, size) _ h

theorem lookupA_loadStep_self (fr : Nat) (fn : String) (size : Bits32)
    (pl : String) (fonts : List ((String × Bits32) × DrawFont)) :
    (lookupA (loadStep fr fn size pl fonts) (fn, size)).map DrawFont.cache =
      some ((match lookupA fonts (fn, size) with
        | some f => f.cache
        | none => []) ++ [pl]) := by
  cases hl : lookupA fonts (fn, size) with
  | some f =>
    unfold loadStep
    simp only [hl, lookupA_updateA_self]
    simp [DrawFont.add_str_to_cache]
  | none =>
    unfold loadStep
    simp only [hl, lookupA_insertA_self]
    simp [DrawFont.add_str_to_cache, DrawFont.new]

theorem keysOf_loadStep_nodup (fr : Nat) (fn : String) (size : Bits32)
    (pl : String) (fonts : List ((String × Bits32) × DrawFont))
    (h : (keysOf fonts).Nodup) :
    (keysOf (loadStep fr fn size pl fonts)).Nodup := by
  unfold loadStep
  cases lookupA fonts (fn, size) with
  | some f => rw [keysOf_updateA]; exact h
  | none => exact keysOf_insertA_nodup fonts (fn, size) _ h

theorem textsFor_cons (sz : Bits32) (pl : String)
    (rest : List (Bits32 × String)) (s : Bits32) :
    textsFor ((sz, pl) :: rest) s =
      if sz = s then pl :: textsFor rest s else textsFor rest s := by
  by_cases h : sz = s <;> simp [textsFor, List.filter_cons, h]

theorem lookupA_loadSizes_ne (fr : Nat) (fn : String)
    (sizes : List (Bits32 × String))
    (fonts : List ((String × Bits32) × DrawFont))
    {k : String × Bits32} (h : k.1 ≠ fn) :
    lookupA (loadSizes fr fn sizes fonts) k = lookupA fonts k := by
  induction sizes generalizing fonts with
  | nil => rfl
  | cons p rest ih =>
    obtain ⟨sz, pl⟩ := p
    rw [loadSizes, ih, lookupA_loadStep_ne]
    intro he
    exact h (by rw [he])

theorem lookupA_loadSizes_cache (fr : Nat) (fn : String)
    (sizes : List (Bits32 × String))
    (fonts : List ((String × Bits32) × DrawFont)) (s : Bits32) :
    (lookupA (loadSizes fr fn sizes fonts) (fn, s)).map DrawFont.cache =
      cacheAfter (lookupA fonts (fn, s)) (textsFor sizes s) := by
  induction sizes generalizing fonts with
  | nil =>
    cases hl : lookupA fonts (fn, s) <;>
      simp [loadSizes, textsFor, cacheAfter, hl]
  | cons p rest ih =>
    obtain ⟨sz, pl⟩ := p
    rw [loadSizes, ih, textsFor_cons]
    by_cases hsz : sz = s
    · subst hsz
      rw [if_pos rfl]
      have hstep := lookupA_loadStep_self fr fn sz pl fonts
      cases hl : lookupA fonts (fn, sz) with
      | some f =>
        simp only [hl] at hstep
        cases hl2 : lookupA (loadStep fr fn sz pl fonts) (fn, sz) with
        | none => rw [hl2] at hstep; cases hstep
        | some f2 =>
          rw [hl2] at hstep
          have hc : f2.cache = f.cache ++ [pl] := by simpa using hstep
          simp [cacheAfter, hc, List.append_assoc]
      | none =>
        simp only [hl] at hstep
        cases hl2 : lookupA (loadStep fr fn sz pl fonts) (fn, sz) with
        | none => rw [hl2] at hstep; cases hstep
        | some f2 =>
          rw [hl2] at hstep
          have hc : f2.cache = [pl] := by simpa using hstep
          simp [cacheAfter, hc]
    · have hne : ((fn, s) : String × Bits32) ≠ (fn, sz) := by
        intro he
        injection he with h1 h2
        exact hsz h2.symm
      rw [lookupA_loadStep_ne fr fn sz pl fonts hne, if_neg hsz]

theorem keysOf_loadSizes_nodup (fr : Nat) (fn : String)
    (sizes : List (Bits32 × String))
    (fonts : List ((String × Bits32) × DrawFont))
    (h : (keysOf fonts).Nodup) :
    (keysOf (loadSizes fr fn sizes fonts)).Nodup := by
  induction sizes generalizing fonts with
  | nil => exact h
  | cons p rest ih =>
    obtain ⟨sz, pl⟩ := p
    rw [loadSizes]
    exact ih _ (keysOf_loadStep_nodup fr fn sz pl fonts h)

/-! ### Lemmas about the outer loop of `load_fonts` -/

theorem loadEntry_inv {env : Env} {fp : List (String × String)}
    {fn : String} {v : String × List (Bits32 × String)}
    {fonts fonts' : List ((String × Bits32) × DrawFont)}
    {fp' : List (String × String)} {evs' : List Ev}
    (h : loadEntry env fp fn v fonts = some (fonts', fp', evs')) :
    ∃ fr path,
      fonts' = loadSizes fr fn v.2 fonts ∧
      ((lookupA fp fn = some path ∧ fp' = fp ∧ evs' = [Ev.load fn path]) ∨
        (lookupA fp fn = none ∧ env.findFontSys fn = some path ∧
          fp' = insertA fp fn path ∧
          evs' = [Ev.sysResolve fn path, Ev.load fn path])) := by
  unfold loadEntry at h
  cases hfp : lookupA fp fn with
  | some p =>
    simp only [hfp] at h
    cases hr : FontLoader.from_path env p with
    | none => simp [hr] at h
    | some pf =>
      cases pf with
      | none => simp [hr] at h
      | some fr =>
        simp only [hr, Option.some_bind, Option.map_some', Option.some.injEq,
          Prod.mk.injEq] at h
        obtain ⟨h1, h2, h3⟩ := h
        exact ⟨fr, p, h1.symm, Or.inl ⟨rfl, h2.symm, h3.symm⟩⟩
  | none =>
    simp only [hfp, find_font] at h
    cases hs : env.findFontSys fn with
    | none => simp [hs] at h
    | some q =>
      simp only [hs, Option.some_bind] at h
      cases hr : FontLoader.from_path env q with
      | none => simp [hr] at h
      | some pf =>
        cases pf with
        | none => simp [hr] at h
        | some fr =>
          simp only [hr, Option.some_bind, Option.map_some', Option.some.injEq,
            Prod.mk.injEq] at h
          obtain ⟨h1, h2, h3⟩ := h
          exact ⟨fr, q, h1.symm, Or.inr ⟨rfl, rfl, h2.symm, h3.symm⟩⟩

theorem loadFontsAux_not_mem {env : Env} :
    ∀ {entries : List (String × (String × List (Bits32 × String)))}
      {fonts fonts' : List ((String × Bits32) × DrawFont)}
      {fp fp' : List (String × String)} {evs : List Ev},
      loadFontsAux env entries fonts fp = some (fonts', fp', evs) →
      ∀ {name : String}, name ∉ keysOf entries →
      (∀ s, lookupA fonts' (name, s) = lookupA fonts (name, s)) ∧
        lookupA fp' name = lookupA fp name ∧
        ∀ e ∈ evs, evName e ∈ keysOf entries := by
  intro entries
  induction entries with
  | nil =>
    intro fonts fonts' fp fp' evs h name hn
    simp only [loadFontsAux, Option.some.injEq, Prod.mk.injEq] at h
    obtain ⟨rfl, rfl, rfl⟩ := h
    simp
  | cons p rest ih =>
    intro fonts fonts' fp fp' evs h name hn
    obtain ⟨fn, w⟩ := p
    simp only [keysOf_cons, List.mem_cons, not_or] at hn
    obtain ⟨hfn, hrest⟩ := hn
    simp only [loadFontsAux] at h
    cases he : loadEntry env fp fn w fonts with
    | none => rw [he] at h; cases h
    | some r =>
      obtain ⟨fonts1, fp1, evs1⟩ := r
      rw [he] at h
      simp only [Option.some_bind] at h
      cases ha : loadFontsAux env rest fonts1 fp1 with
      | none => simp [ha] at h
      | some r2 =>
        obtain ⟨fonts2, fp2, evs2⟩ := r2
        rw [ha] at h
        simp only [Option.map_some', Option.some.injEq, Prod.mk.injEq] at h
        obtain ⟨rfl, rfl, rfl⟩ := h
        obtain ⟨fr, path, hfonts1, hbranch⟩ := loadEntry_inv he
        obtain ⟨ih1, ih2, ih3⟩ := ih ha hrest
        refine ⟨?_, ?_, ?_⟩
        · intro s
          rw [ih1 s, hfonts1,
            lookupA_loadSizes_ne fr fn w.2 fonts (k := (name, s)) hfn]
        · rw [ih2]
          rcases hbranch with ⟨_, rfl, _⟩ | ⟨_, _, rfl, _⟩
          · rfl
          · exact lookupA_insertA_ne fp fn path hfn
        · intro e hm
          rcases List.mem_append.1 hm with hm1 | hm2
          · rcases hbranch with ⟨_, _, rfl⟩ | ⟨_, _, _, rfl⟩
            · simp only [List.mem_singleton] at hm1
              subst hm1
              simp [evName]
            · simp only [List.mem_cons, List.not_mem_nil, or_false] at hm1
              rcases hm1 with rfl | rfl <;> simp [evName]
          · exact List.mem_cons_of_mem _ (ih3 e hm2)

theorem countLoads_append (name : String) (l1 l2 : List Ev) :
    countLoads name (l1 ++ l2) = countLoads name l1 + countLoads name l2 := by
  simp [countLoads, List.filter_append]

theorem countLoads_eq_zero (name : String) (evs : List Ev)
    (h : ∀ e ∈ evs, evName e ≠ name) :
    countLoads name evs = 0 := by
  induction evs with
  | nil => rfl
  | cons e rest ih =>
    have he := h e (by simp)
    have hr := ih fun e' he' => h e' (by simp [he'])
    cases e with
    | sysResolve n p => simpa [countLoads, List.filter_cons] using hr
    | load n p =>
      have : (n == name) = false := by
        simp only [evName] at he
        simp [he]
      simpa [countLoads, List.filter_cons, this] using hr

theorem loadFontsAux_entry {env : Env} :
    ∀ {entries : List (String × (String × List (Bits32 × String)))}
      {fonts fonts' : List ((String × Bits32) × DrawFont)}
      {fp fp' : List (String × String)} {evs : List Ev},
      (keysOf entries).Nodup →
      loadFontsAux env entries fonts fp = some (fonts', fp', evs) →
      ∀ {name : String} {v : String × List (Bits32 × String)},
        lookupA entries name = some v →
        (∀ s, (lookupA fonts' (name, s)).map DrawFont.cache =
            cacheAfter (lookupA fonts (name, s)) (textsFor v.2 s)) ∧
          countLoads name evs = 1 ∧
          (∀ p, lookupA fp name = some p →
            Ev.load name p ∈ evs ∧ lookupA fp' name = some p ∧
              ∀ q, Ev.sysResolve name q ∉ evs) ∧
          (lookupA fp name = none →
            ∃ q, env.findFontSys name = some q ∧ Ev.sysResolve name q ∈ evs ∧
              Ev.load name q ∈ evs ∧ lookupA fp' name = some q) := by
  intro entries
  induction entries with
  | nil =>
    intro fonts fonts' fp fp' evs hnd h name v hv
    cases hv
  | cons p rest ih =>
    intro fonts fonts' fp fp' evs hnd h name v hv
    obtain ⟨fn, w⟩ := p
    simp only [keysOf_cons, List.nodup_cons] at hnd
    obtain ⟨hfn_rest, hnd_rest⟩ := hnd
    simp only [loadFontsAux] at h
    cases he : loadEntry env fp fn w fonts with
    | none => rw [he] at h; cases h
    | some r =>
      obtain ⟨fonts1, fp1, evs1⟩ := r
      rw [he] at h
      simp only [Option.some_bind] at h
      cases ha : loadFontsAux env rest fonts1 fp1 with
      | none => simp [ha] at h
      | some r2 =>
        obtain ⟨fonts2, fp2, evs2⟩ := r2
        rw [ha] at h
        simp only [Option.map_some', Option.some.injEq, Prod.mk.injEq] at h
        obtain ⟨rfl, rfl, rfl⟩ := h
        obtain ⟨fr, path, hfonts1, hbranch⟩ := loadEntry_inv he
        by_cases hname : fn = name
        · subst hname
          have hv' : w = v := by
            simpa [lookupA] using hv
          subst hv'
          obtain ⟨r1, r2', r3⟩ := loadFontsAux_not_mem ha hfn_rest
          have hev2 : ∀ e ∈ evs2, evName e ≠ fn := by
            intro e hm heq
            exact hfn_rest (heq ▸ r3 e hm)
          have hcache : ∀ s,
              (lookupA fonts2 (fn, s)).map DrawFont.cache =
                cacheAfter (lookupA fonts (fn, s)) (textsFor w.2 s) := by
            intro s
            rw [r1 s, hfonts1, lookupA_loadSizes_cache]
          rcases hbranch with ⟨hpath, rfl, rfl⟩ | ⟨hpath0, hfind, rfl, rfl⟩
          · refine ⟨hcache, ?_, ?_, ?_⟩
            · rw [countLoads_append, countLoads_eq_zero fn evs2 hev2]
              simp [countLoads]
            · intro p hp
              rw [hpath] at hp
              obtain rfl : path = p := by simpa using hp
              refine ⟨List.mem_append_left _ (by simp), ?_, ?_⟩
              · rw [r2', hpath]
              · intro q hq
                rcases List.mem_append.1 hq with h1 | h2
                · simp at h1
                · exact hev2 _ h2 rfl
            · intro hp
              rw [hpath] at hp
              cases hp
          · refine ⟨hcache, ?_, ?_, ?_⟩
            · rw [countLoads_append, countLoads_eq_zero fn evs2 hev2]
              simp [countLoads, List.filter]
            · intro p hp
              rw [hpath0] at hp
              cases hp
            · intro _
              refine ⟨path, hfind, List.mem_append_left _ (by simp),
                List.mem_append_left _ (by simp), ?_⟩
              rw [r2', lookupA_insertA_self]
        · have hname' : name ≠ fn := fun he' => hname he'.symm
          have hv' : lookupA rest name = some v := by
            simpa [lookupA, hname] using hv
          obtain ⟨c1, c2, c3, c4⟩ := ih hnd_rest ha hv'
          have hfp1 : lookupA fp1 name = lookupA fp name := by
            rcases hbranch with ⟨_, rfl, _⟩ | ⟨_, _, rfl, _⟩
            · rfl
            · exact lookupA_insertA_ne fp fn path hname'
          have hev1 : ∀ e ∈ evs1, evName e ≠ name := by
            intro e hm heq
            rcases hbranch with ⟨_, _, rfl⟩ | ⟨_, _, _, rfl⟩
            · simp only [List.mem_singleton] at hm
              subst hm
              exact hname (by simpa [evName] using heq)
            · simp only [List.mem_cons, List.not_mem_nil, or_false] at hm
              rcases hm with rfl | rfl <;>
                exact hname (by simpa [evName] using heq)
          refine ⟨?_, ?_, ?_, ?_⟩
          · intro s
            rw [c1 s, hfonts1,
              lookupA_loadSizes_ne fr fn w.2 fonts (k := (name, s)) hname']
          · rw [countLoads_append, countLoads_eq_zero name evs1 hev1, c2]
          · intro p hp
            obtain ⟨d1, d2, d3⟩ := c3 p (hfp1.trans hp)
            refine ⟨List.mem_append_right _ d1, d2, ?_⟩
            intro q hq
            rcases List.mem_append.1 hq with h1 | h2
            · exact hev1 _ h1 rfl
            · exact d3 q h2
          · intro hp
            obtain ⟨q, d1, d2, d3, d4⟩ := c4 (hfp1.trans hp)
            exact ⟨q, d1, List.mem_append_right _ d2,
              List.mem_append_right _ d3, d4⟩

theorem loadFontsAux_fonts_nodup {env : Env} :
    ∀ {entries : List (String × (String × List (Bits32 × String)))}
      {fonts fonts' : List ((String × Bits32) × DrawFont)}
      {fp fp' : List (String × String)} {evs : List Ev},
      loadFontsAux env entries fonts fp = some (fonts', fp', evs) →
      (keysOf fonts).Nodup → (keysOf fonts').Nodup := by
  intro entries
  induction entries with
  | nil =>
    intro fonts fonts' fp fp' evs h hnd
    simp only [loadFontsAux, Option.some.injEq, Prod.mk.injEq] at h
    obtain ⟨rfl, rfl, rfl⟩ := h
    exact hnd
  | cons p rest ih =>
    intro fonts fonts' fp fp' evs h hnd
    obtain ⟨fn, w⟩ := p
    simp only [loadFontsAux] at h
    cases he : loadEntry env fp fn w fonts with
    | none => rw [he] at h; cases h
    | some r =>
      obtain ⟨fonts1, fp1, evs1⟩ := r
      rw [he] at h
      simp only [Option.some_bind] at h
      cases ha : loadFontsAux env rest fonts1 fp1 with
      | none => simp [ha] at h
      | some r2 =>
        obtain ⟨fonts2, fp2, evs2⟩ := r2
        rw [ha] at h
        simp only [Option.map_some', Option.some.injEq, Prod.mk.injEq] at h
        obtain ⟨rfl, rfl, rfl⟩ := h
        obtain ⟨fr, path, hfonts1, _⟩ := loadEntry_inv he
        refine ih ha ?_
        rw [hfonts1]
        exact keysOf_loadSizes_nodup fr fn w.2 fonts hnd

theorem load_fonts_inv {env : Env} {m m' : FontMap} {evs : List Ev}
    (h : m.load_fonts env = some (m', evs)) :
    loadFontsAux env m.required_fonts m.fonts m.font_paths =
        some (m'.fonts, m'.font_paths, evs) ∧
      m'.required_fonts = m.required_fonts := by
  unfold FontMap.load_fonts at h
  cases ha : loadFontsAux env m.required_fonts m.fonts m.font_paths with
  | none => rw [ha] at h; cases h
  | some t =>
    obtain ⟨fonts', fp', evs0⟩ := t
    rw [ha] at h
    simp only [Option.map_some', Option.some.injEq, Prod.mk.injEq] at h
    obtain ⟨rfl, rfl⟩ := h
    exact ⟨rfl, rfl⟩

theorem resolveN_ready (g : FontMap) (k : Nat) :
    MaybeFontMap.resolveN k (.Ready g) = some (.Ready g, 0) := by
  induction k with
  | zero => rfl
  | succ k ih => simp [MaybeFontMap.resolveN, MaybeFontMap.resolve, ih]

/-! ### The claims -/

/-- C1 (amended): within a single `load_fonts` invocation, each font
name's file is read from disk and parsed (`FontLoader::from_path`) at
most once — exactly once for every name present in `required_fonts` —
regardless of how many sizes are queued for that name.  (The original
"regardless of how many times load_fonts is invoked" half fails: each
invocation re-reads the file, see the counterexample.) -/
theorem load_fonts_reads_once_per_call (env : Env) (m m' : FontMap)
    (evs : List Ev) (name : String)
    (hnd : (keysOf m.required_fonts).Nodup)
    (h : m.load_fonts env = some (m', evs)) :
    countLoads name evs ≤ 1 ∧
      (name ∈ keysOf m.required_fonts → countLoads name evs = 1) := by
  obtain ⟨ha, hreq⟩ := load_fonts_inv h
  have hone : name ∈ keysOf m.required_fonts → countLoads name evs = 1 := by
    intro hq
    obtain ⟨v, hv⟩ := (mem_keysOf_iff_lookupA _ _).1 hq
    exact (loadFontsAux_entry hnd ha hv).2.1
  refine ⟨?_, hone⟩
  by_cases hq : name ∈ keysOf m.required_fonts
  · rw [hone hq]
  · obtain ⟨_, _, r3⟩ := loadFontsAux_not_mem ha hq
    rw [countLoads_eq_zero name evs fun e he heq => hq (heq ▸ r3 e he)]
    exact Nat.zero_le 1

/-- C1 witness: the per-invocation bound at the concrete run of
`load_fonts` on the map with ("A", 100, "x") queued. -/
theorem load_fonts_reads_once_per_call_witness :
    countLoads "A" evsC1 ≤ 1 ∧
      ("A" ∈ keysOf mC1.required_fonts → countLoads "A" evsC1 = 1) :=
  load_fonts_reads_once_per_call envW mC1 mC1r evsC1 "A"
    (by decide) (by decide)

/-- C1 counterexample: the claim "the font file is read and parsed at
most once per name … regardless of how many times load_fonts is invoked
on the same FontMap" is false.  Queue "A" once, invoke `load_fonts`
twice: the file of "A" is read and parsed twice (once per invocation),
because `required_fonts` still holds the requirement after the first
pass. -/
theorem load_fonts_rereads_on_second_call :
    ((FontMap.new.queue_font "A" 100 "x").load_fonts envW).bind
        (fun r => (r.1.load_fonts envW).map
          (fun r2 => countLoads "A" r.2 + countLoads "A" r2.2)) =
      some 2 := by
  decide

/-- C2 counterexample: the claim "resolve while the handle is Invalid
panics" is false.  `MaybeFontMap::resolve` on `Invalid` does not fail
(the `matches!(self, Waiting(_))` guard is false, so the method returns
without doing anything): it is not `none` (no panic) but a silent no-op
that performs zero joins. -/
theorem resolve_invalid_does_not_panic :
    MaybeFontMap.resolve MaybeFontMap.Invalid ≠ none ∧
      MaybeFontMap.resolve MaybeFontMap.Invalid =
        some (MaybeFontMap.Invalid, 0) :=
  ⟨fun h => Option.noConfusion h, rfl⟩

/-- C2 (amended): requesting synchronization (`resolve`) while the handle
is in the transient `Invalid` state silently no-ops — the state stays
`Invalid` and no join is performed; the call that fails fatally on
`Invalid` is access (`unwrap`), which panics for every non-`Ready`
state. -/
theorem resolve_invalid_noop_but_unwrap_fatal :
    MaybeFontMap.resolve MaybeFontMap.Invalid =
        some (MaybeFontMap.Invalid, 0) ∧
      MaybeFontMap.unwrap MaybeFontMap.Invalid = none :=
  ⟨rfl, rfl⟩

/-- C3: with no duplicate names among the pending requirements and no
duplicate keys in the ready cache, resolving leaves the ready cache
duplicate-free, and the entry at any queued (name, size-key) holds its
previous warm-up extended — in queue order — by exactly the sample texts
queued for that (name, size); in particular one entry per (name,
size-key), however many times the pair was queued. -/
theorem load_fonts_no_duplicate_entries (env : Env) (m m' : FontMap)
    (evs : List Ev) (name : String) (s : Bits32)
    (v : String × List (Bits32 × String))
    (hnd1 : (keysOf m.required_fonts).Nodup)
    (hnd2 : (keysOf m.fonts).Nodup)
    (h : m.load_fonts env = some (m', evs))
    (hv : lookupA m.required_fonts name = some v) :
    (keysOf m'.fonts).Nodup ∧
      (lookupA m'.fonts (name, s)).map DrawFont.cache =
        cacheAfter (lookupA m.fonts (name, s)) (textsFor v.2 s) := by
  obtain ⟨ha, hreq⟩ := load_fonts_inv h
  exact ⟨loadFontsAux_fonts_nodup ha hnd2,
    (loadFontsAux_entry hnd1 ha hv).1 s⟩

/-- C3 witness: the spec §8 scenario — queue ("Sans", 12.0, "Hello"),
("Sans", 12.0, "World"), ("Sans", 24.0, "Hi"), resolve: the cache is
duplicate-free and the 12.0 entry is warmed for both "Hello" and
"World". -/
theorem load_fonts_no_duplicate_entries_witness :
    mC3.load_fonts envW = some (mC3r, evsC3) ∧
      ((keysOf mC3r.fonts).Nodup ∧
        (lookupA mC3r.fonts ("Sans", 1094713344)).map DrawFont.cache =
          cacheAfter (lookupA mC3.fonts ("Sans", 1094713344))
            (textsFor vC3.2 1094713344)) :=
  ⟨by decide,
    load_fonts_no_duplicate_entries envW mC3 mC3r evsC3 "Sans" 1094713344
      vC3 (by decide) (by decide) (by decide) (by decide)⟩

/-- C4: two `ComparableF32` keys are equal — and feed the identical value
to the hasher — exactly when their raw bit patterns are identical; and
numerically equal but bit-different values are distinct keys, witnessed
by +0.0 (bits 0) and -0.0 (bits 2^31), which denote the same number but
compare unequal as keys. -/
theorem comparable_f32_bit_pattern_equality (a b : ComparableF32) :
    (ComparableF32.beq a b = true ↔ a.bits = b.bits) ∧
      (a.hashInput = b.hashInput ↔ a.bits = b.bits) ∧
      f32val 0 = f32val (2 ^ 31) ∧
      ComparableF32.beq ⟨0⟩ ⟨2 ^ 31⟩ = false := by
  refine ⟨?_, Iff.rfl, by decide, by decide⟩
  simp [ComparableF32.beq, ComparableF32.key]

/-- C5: synchronization is idempotent and joins exactly once.  Any
positive number `n` of successive `resolve` calls starting from
`Waiting` (with a worker that produced `fm`) ends `Ready fm` having
performed exactly one join in total, and starting from `Ready g` stays
`Ready g` with zero joins. -/
theorem resolve_idempotent_single_join (fm g : FontMap) (n : Nat)
    (h : 1 ≤ n) :
    MaybeFontMap.resolveN n (MaybeFontMap.Waiting (some fm)) =
        some (MaybeFontMap.Ready fm, 1) ∧
      MaybeFontMap.resolveN n (MaybeFontMap.Ready g) =
        some (MaybeFontMap.Ready g, 0) := by
  obtain ⟨k, rfl⟩ : ∃ k, n = k + 1 := ⟨n - 1, by omega⟩
  refine ⟨?_, resolveN_ready g (k + 1)⟩
  simp [MaybeFontMap.resolveN, MaybeFontMap.resolve, resolveN_ready]

/-- C5 witness: three successive `resolve` calls on a fresh `Waiting`
handle end `Ready` with exactly one join; three on a `Ready` handle stay
`Ready` with none. -/
theorem resolve_idempotent_single_join_witness :
    1 ≤ 3 ∧
      (MaybeFontMap.resolveN 3 (MaybeFontMap.Waiting (some FontMap.new)) =
          some (MaybeFontMap.Ready FontMap.new, 1) ∧
        MaybeFontMap.resolveN 3 (MaybeFontMap.Ready FontMap.new) =
          some (MaybeFontMap.Ready FontMap.new, 0)) :=
  ⟨by decide,
    resolve_idempotent_single_join FontMap.new FontMap.new 3 (by decide)⟩

/-- C6: `get_font(name, size)` returns exactly the ready-cache binding of
the key (name, size-bits) when one exists, and fails fatally (`none`,
the `expect` panic) precisely when no entry with that exact key exists —
whatever other names or sizes are cached, there is no fallback. -/
theorem get_font_exact_match_or_fatal (m : FontMap) (name : String)
    (s : Bits32) :
    (∀ f, m.get_font name s = some f ↔ lookupA m.fonts (name, s) = some f) ∧
      (m.get_font name s = none ↔ (name, s) ∉ keysOf m.fonts) :=
  ⟨fun _ => Iff.rfl, lookupA_eq_none_iff m.fonts (name, s)⟩

/-- C7: if `add_font_path(name, p)` was applied before resolution then
resolving reads `name`'s file from `p` and never consults the system
resolver for `name`; and when no path is recorded for a queued `name`,
resolution consults the system resolver and caches the answer in the
paths map. -/
theorem add_font_path_overrides_resolver (env : Env) (m : FontMap)
    (name p : String)
    (hnd : (keysOf m.required_fonts).Nodup)
    (hq : name ∈ keysOf m.required_fonts) :
    (∀ m' evs, (m.add_font_path name p).load_fonts env = some (m', evs) →
        Ev.load name p ∈ evs ∧ ∀ q, Ev.sysResolve name q ∉ evs) ∧
      (∀ m' evs, lookupA m.font_paths name = none →
        m.load_fonts env = some (m', evs) →
        ∃ q, env.findFontSys name = some q ∧ Ev.sysResolve name q ∈ evs ∧
          Ev.load name q ∈ evs ∧ lookupA m'.font_paths name = some q) := by
  obtain ⟨v, hv⟩ := (mem_keysOf_iff_lookupA _ _).1 hq
  constructor
  · intro m' evs h
    obtain ⟨ha, hreq⟩ := load_fonts_inv h
    have hp : lookupA (m.add_font_path name p).font_paths name = some p :=
      lookupA_insertA_self m.font_paths name p
    obtain ⟨_, _, c3, _⟩ := loadFontsAux_entry hnd ha hv
    obtain ⟨d1, _, d3⟩ := c3 p hp
    exact ⟨d1, d3⟩
  · intro m' evs hnone h
    obtain ⟨ha, hreq⟩ := load_fonts_inv h
    obtain ⟨_, _, _, c4⟩ := loadFontsAux_entry hnd ha hv
    exact c4 hnone

/-- C7 witness: with "Mono" queued, resolving after
`add_font_path "Mono" "/override.ttf"` reads the override and never
consults the resolver; resolving without an override consults the
resolver for "/f.ttf", reads it, and caches it in the paths map. -/
theorem add_font_path_overrides_resolver_witness :
    (Ev.load "Mono" "/override.ttf" ∈ evsC7a ∧
        ∀ q, Ev.sysResolve "Mono" q ∉ evsC7a) ∧
      (∃ q, envW.findFontSys "Mono" = some q ∧
        Ev.sysResolve "Mono" q ∈ evsC7b ∧ Ev.load "Mono" q ∈ evsC7b ∧
        lookupA mC7b.font_paths "Mono" = some q) :=
  ⟨(add_font_path_overrides_resolver envW mC7 "Mono" "/override.ttf"
        (by decide) (by decide)).1 mC7a evsC7a (by decide),
    (add_font_path_overrides_resolver envW mC7 "Mono" "/override.ttf"
        (by decide) (by decide)).2 mC7b evsC7b (by decide) (by decide)⟩

/-- C8: `unwrap` (access) returns the shared `FontMap` handle when the
state is `Ready`, and fails fatally (`none`, the "fontmap not yet ready"
panic) when called while still `Waiting`. -/
theorem unwrap_ready_or_fatal (f : FontMap) (h : Option FontMap) :
    MaybeFontMap.unwrap (MaybeFontMap.Ready f) = some f ∧
      MaybeFontMap.unwrap (MaybeFontMap.Waiting h) = none :=
  ⟨rfl, rfl⟩

/-- C9: `load_fonts` never removes entries from `required_fonts` — after
resolution the pending map is exactly what it was — so a second
`load_fonts` call re-processes every previously queued name, reading and
parsing its file once more. -/
theorem load_fonts_preserves_required (env env2 : Env)
    (m m' m'' : FontMap) (evs evs2 : List Ev) (name : String)
    (hnd : (keysOf m.required_fonts).Nodup)
    (hq : name ∈ keysOf m.required_fonts)
    (h : m.load_fonts env = some (m', evs))
    (h2 : m'.load_fonts env2 = some (m'', evs2)) :
    m'.required_fonts = m.required_fonts ∧ countLoads name evs2 = 1 := by
  obtain ⟨ha, hreq⟩ := load_fonts_inv h
  obtain ⟨ha2, hreq2⟩ := load_fonts_inv h2
  refine ⟨hreq, ?_⟩
  obtain ⟨v, hv⟩ := (mem_keysOf_iff_lookupA _ _).1 hq
  have hv2 : lookupA m'.required_fonts name = some v := by
    rw [hreq]; exact hv
  have hnd2 : (keysOf m'.required_fonts).Nodup := by
    rw [hreq]; exact hnd
  exact (loadFontsAux_entry hnd2 ha2 hv2).2.1

/-- C9 witness: after resolving the map with ("Serif", 100, "x") queued,
the pending map is unchanged, and a second resolution reads the file of
"Serif" again (exactly once). -/
theorem load_fonts_preserves_required_witness :
    mC9r.required_fonts = mC9.required_fonts ∧
      countLoads "Serif" evsC9b = 1 :=
  load_fonts_preserves_required envW envW mC9 mC9r mC9rr evsC9a evsC9b
    "Serif" (by decide) (by decide) (by decide) (by decide)

/-- C10: key equality is bit-pattern equality, hence reflexive even for
NaN bit patterns: for any `f32` bit pattern `b` — NaN included — queueing
(name, b, text) on a fresh map and resolving makes `get_font name b`
(with the bit-identical size) succeed, returning the entry warmed with
`text`. -/
theorem nan_key_roundtrip (env : Env) (name : String) (b : Bits32)
    (text : String) (m' : FontMap) (evs : List Ev)
    (h : (FontMap.new.queue_font name b text).load_fonts env =
      some (m', evs)) :
    ∃ f, m'.get_font name b = some f ∧ text ∈ f.cache := by
  obtain ⟨ha, hreq⟩ := load_fonts_inv h
  have hv : lookupA (FontMap.new.queue_font name b text).required_fonts
      name = some (name, [(b, text)]) := by
    simp [FontMap.queue_font, FontMap.new, lookupA, insertA]
  have hnd : (keysOf
      (FontMap.new.queue_font name b text).required_fonts).Nodup := by
    simp [FontMap.queue_font, FontMap.new, lookupA, insertA]
  have hc := (loadFontsAux_entry hnd ha hv).1 b
  simp only [FontMap.queue_font, FontMap.new, lookupA, cacheAfter,
    textsFor, List.filter, beq_self_eq_true, List.map_cons, List.map_nil,
    List.isEmpty_cons] at hc
  cases hf : lookupA m'.fonts (name, b) with
  | none => rw [hf] at hc; cases hc
  | some f =>
    rw [hf] at hc
    refine ⟨f, hf, ?_⟩
    have hfc : f.cache = [text] := by simpa using hc
    simp [hfc]

/-- C10 witness: with the canonical quiet-NaN bit pattern 2143289344
(0x7FC00000), queueing ("Sans", NaN, "!") and resolving makes
`get_font "Sans" NaN` succeed with the entry warmed for "!". -/
theorem nan_key_roundtrip_witness :
    isNaN32 2143289344 = true ∧
      ∃ f, FontMap.get_font mC10r "Sans" 2143289344 = some f ∧
        "!" ∈ f.cache :=
  ⟨by decide,
    nan_key_roundtrip envW "Sans" 2143289344 "!" mC10r evsC10 (by decide)⟩

end Wldash
